import Mathlib

/-!
Shallow embedding of the `mandelbrot` Rust program (files `main.rs`, `colour.rs`,
`complex.rs`, `vector3d.rs`) and proofs of the specification claims about it.

Modelling conventions:
* Rust `f64` values are modelled as exact rationals (`ℚ`); all the claims
  settled here concern the arithmetic structure of the code, and the concrete
  counterexample/witness inputs are chosen so that every `f64` operation
  involved is exact, making the rational model faithful at those inputs.
* Rust `u32`/`usize` values are modelled as `ℕ`; `u8` as `Fin 256`.
* A Rust `panic!` (explicit, or implicit from division by zero) is modelled by
  returning `none` from an `Option`-valued function.
-/

namespace Mandelbrot

/-- Complex number, from `complex.rs`: two `f64` fields `real` and `imag`. -/
structure Complex where
  real : ℚ
  imag : ℚ
deriving DecidableEq

/-- Complex addition, from `impl Add for Complex` in `complex.rs`. -/
instance : Add Complex where
  add a b := ⟨a.real + b.real, a.imag + b.imag⟩

@[simp] theorem Complex.add_real (a b : Complex) : (a + b).real = a.real + b.real := rfl

@[simp] theorem Complex.add_imag (a b : Complex) : (a + b).imag = a.imag + b.imag := rfl

/-- 3D vector, from `vector3d.rs`: three `f64` fields. -/
structure Vector3d where
  x : ℚ
  y : ℚ
  z : ℚ
deriving DecidableEq

namespace Vector3d

/-- Constructor `Vector3d::new`. -/
def new (x y z : ℚ) : Vector3d := ⟨x, y, z⟩

/-- Addition, `impl Add for Vector3d`: componentwise addition. -/
instance : Add Vector3d where
  add a b := ⟨a.x + b.x, a.y + b.y, a.z + b.z⟩

/-- Subtraction, `impl Sub for Vector3d`: componentwise subtraction. -/
instance : Sub Vector3d where
  sub a b := ⟨a.x - b.x, a.y - b.y, a.z - b.z⟩

/-- Scalar division, `impl Div<f64> for Vector3d`: divide each component by a scalar. -/
instance : HDiv Vector3d ℚ Vector3d where
  hDiv v d := ⟨v.x / d, v.y / d, v.z / d⟩

/-- Scalar multiplication, `impl Mul<f64> for Vector3d`: multiply each component by a scalar. -/
instance : HMul Vector3d ℚ Vector3d where
  hMul v m := ⟨v.x * m, v.y * m, v.z * m⟩

instance : Zero Vector3d where
  zero := ⟨0, 0, 0⟩

@[simp] theorem add_x (a b : Vector3d) : (a + b).x = a.x + b.x := rfl

@[simp] theorem add_y (a b : Vector3d) : (a + b).y = a.y + b.y := rfl

@[simp] theorem add_z (a b : Vector3d) : (a + b).z = a.z + b.z := rfl

@[simp] theorem sub_x (a b : Vector3d) : (a - b).x = a.x - b.x := rfl

@[simp] theorem sub_y (a b : Vector3d) : (a - b).y = a.y - b.y := rfl

@[simp] theorem sub_z (a b : Vector3d) : (a - b).z = a.z - b.z := rfl

@[simp] theorem div_x (a : Vector3d) (d : ℚ) : (a / d).x = a.x / d := rfl

@[simp] theorem div_y (a : Vector3d) (d : ℚ) : (a / d).y = a.y / d := rfl

@[simp] theorem div_z (a : Vector3d) (d : ℚ) : (a / d).z = a.z / d := rfl

@[simp] theorem mul_x (a : Vector3d) (m : ℚ) : (a * m).x = a.x * m := rfl

@[simp] theorem mul_y (a : Vector3d) (m : ℚ) : (a * m).y = a.y * m := rfl

@[simp] theorem mul_z (a : Vector3d) (m : ℚ) : (a * m).z = a.z * m := rfl

@[simp] theorem zero_x : (0 : Vector3d).x = 0 := rfl

@[simp] theorem zero_y : (0 : Vector3d).y = 0 := rfl

@[simp] theorem zero_z : (0 : Vector3d).z = 0 := rfl

theorem ext_iff {a b : Vector3d} : a = b ↔ a.x = b.x ∧ a.y = b.y ∧ a.z = b.z := by
  constructor
  · rintro rfl; exact ⟨rfl, rfl, rfl⟩
  · rintro ⟨hx, hy, hz⟩; cases a; cases b; simp_all

instance : AddCommMonoid Vector3d where
  add_assoc a b c := by simp [ext_iff]; exact ⟨add_assoc _ _ _, add_assoc _ _ _, add_assoc _ _ _⟩
  zero_add a := by simp [ext_iff]
  add_zero a := by simp [ext_iff]
  add_comm a b := by simp [ext_iff]; exact ⟨add_comm _ _, add_comm _ _, add_comm _ _⟩
  nsmul := nsmulRec

end Vector3d

/-- Saturating conversion of an `f64` to `u8`, as performed by Rust's `as u8`
cast used in `Colour::from_vector3d`: truncate toward zero, clamping to
`[0, 255]`.  For a non-negative rational the truncation is the floor. -/
def ratToU8 (q : ℚ) : Fin 256 :=
  ⟨if q < 0 then 0 else min 255 (Int.toNat ⌊q⌋), by split <;> omega⟩

/-- 24-bit RGB colour, from `colour.rs`: three `u8` channels. -/
structure Colour where
  r : Fin 256
  g : Fin 256
  b : Fin 256
deriving DecidableEq

instance : Inhabited Colour := ⟨⟨0, 0, 0⟩⟩

/-- The constant `BLACK` in `colour.rs`. -/
def BLACK : Colour := ⟨0, 0, 0⟩

namespace Colour

/-- Constructor `Colour::new`. -/
def new (r g b : Fin 256) : Colour := ⟨r, g, b⟩

/-- Conversion `Colour::from_vector3d`: each component converted by an `as u8` cast. -/
def from_vector3d (v : Vector3d) : Colour :=
  ⟨ratToU8 v.x, ratToU8 v.y, ratToU8 v.z⟩

/-- Conversion `Colour::to_vector3d`: each channel widened to `f64`. -/
def to_vector3d (c : Colour) : Vector3d :=
  ⟨(c.r : ℕ), (c.g : ℕ), (c.b : ℕ)⟩

end Colour

/-- Conversion `Vector3d::from_colour`: same componentwise widening as `Colour::to_vector3d`. -/
def Vector3d.from_colour (c : Colour) : Vector3d :=
  ⟨(c.r : ℕ), (c.g : ℕ), (c.b : ℕ)⟩

theorem ratToU8_natCast (n : ℕ) (h : n ≤ 255) : ratToU8 (n : ℚ) = ⟨n, by omega⟩ := by
  simp only [ratToU8]
  have h0 : ¬ ((n : ℚ) < 0) := not_lt.mpr (by positivity)
  apply Fin.ext
  simp only [h0, if_false, Int.floor_natCast, Int.toNat_natCast]
  omega

theorem from_vector3d_to_vector3d (c : Mandelbrot.Colour) :
    Colour.from_vector3d (Colour.to_vector3d c) = c := by
  obtain ⟨r, g, b⟩ := c
  simp only [Colour.to_vector3d, Colour.from_vector3d]
  have hr := ratToU8_natCast r (by omega)
  have hg := ratToU8_natCast g (by omega)
  have hb := ratToU8_natCast b (by omega)
  simp only [Colour.mk.injEq]
  exact ⟨by rw [hr], by rw [hg], by rw [hb]⟩

/-! ### Escape-time evaluator (`escape_iterations`, main.rs) -/

/-- The update of `z` in the loop body of `escape_iterations`:
`z = Complex::new(zr2 - zi2 + point.real, zri + zri + point.imag)` where
`zr2 = z.real * z.real`, `zi2 = z.imag * z.imag`, `zri = z.real * z.imag`. -/
def escapeStep (point z : Complex) : Complex :=
  ⟨z.real * z.real - z.imag * z.imag + point.real,
   z.real * z.imag + z.real * z.imag + point.imag⟩

/-- The `for i in 0..max_iterations` loop of `escape_iterations`: `z` is the
current iterate, `i` the current loop index and `fuel` the number of remaining
iterations.  The loop returns `i` at the first index where
`zr2 + zi2 > escape_value`, and the function returns `0` when the loop runs to
completion. -/
def escapeLoop (point : Complex) (escape_value : ℚ) : Complex → ℕ → ℕ → ℕ
  | _, _, 0 => 0
  | z, i, Nat.succ fuel =>
    if escape_value < z.real * z.real + z.imag * z.imag then i
    else escapeLoop point escape_value (escapeStep point z) (i + 1) fuel

/-- Function `escape_iterations` from `main.rs`: `escape_value = escape_radius * escape_radius`,
`z` starts at `point`, and the loop runs for at most `max_iterations` steps. -/
def escape_iterations (point : Complex) (max_iterations : ℕ) (escape_radius : ℚ) : ℕ :=
  escapeLoop point (escape_radius * escape_radius) point 0 max_iterations

/-- The orbit of the recurrence `z ← z² + point` with `z₀ = point`, written with
exactly the arithmetic expression the loop uses. -/
def zSeq (point : Complex) : ℕ → Complex
  | 0 => point
  | n + 1 => escapeStep point (zSeq point n)

/-- Predicate: `escapes point R i` says that at index `i` the squared magnitude of the
orbit exceeds `R²`, i.e. `|z_i| > R` for a non-negative radius `R`. -/
def escapes (point : Complex) (escape_radius : ℚ) (i : ℕ) : Prop :=
  escape_radius * escape_radius <
    (zSeq point i).real * (zSeq point i).real + (zSeq point i).imag * (zSeq point i).imag

instance (point : Complex) (R : ℚ) (i : ℕ) : Decidable (escapes point R i) := by
  unfold escapes; infer_instance

theorem escapeLoop_eq_zero (point : Complex) (R : ℚ) :
    ∀ (fuel k : ℕ), (∀ j, k ≤ j → j < k + fuel → ¬ escapes point R j) →
      escapeLoop point (R * R) (zSeq point k) k fuel = 0 := by
  intro fuel
  induction fuel with
  | zero => intro k _; rfl
  | succ n ih =>
    intro k h
    have hk : ¬ escapes point R k := h k le_rfl (by omega)
    simp only [escapeLoop, escapes] at hk ⊢
    rw [if_neg hk]
    have : escapeStep point (zSeq point k) = zSeq point (k + 1) := rfl
    rw [this]
    exact ih (k + 1) (fun j hj1 hj2 => h j (by omega) (by omega))

theorem escapeLoop_finds (point : Complex) (R : ℚ) :
    ∀ (fuel k i : ℕ), k ≤ i → i < k + fuel → escapes point R i →
      (∀ j, k ≤ j → j < i → ¬ escapes point R j) →
      escapeLoop point (R * R) (zSeq point k) k fuel = i := by
  intro fuel
  induction fuel with
  | zero => intro k i h1 h2; omega
  | succ n ih =>
    intro k i h1 h2 hesc hmin
    rcases Nat.eq_or_lt_of_le h1 with rfl | hlt
    · simp only [escapeLoop, escapes] at hesc ⊢
      rw [if_pos hesc]
    · have hk : ¬ escapes point R k := hmin k le_rfl hlt
      simp only [escapeLoop, escapes] at hk ⊢
      rw [if_neg hk]
      have : escapeStep point (zSeq point k) = zSeq point (k + 1) := rfl
      rw [this]
      exact ih (k + 1) i (by omega) (by omega) hesc
        (fun j hj1 hj2 => hmin j (by omega) hj2)

theorem escapeLoop_range (point : Complex) (ev : ℚ) :
    ∀ (fuel k : ℕ) (z : Complex),
      escapeLoop point ev z k fuel = 0 ∨ escapeLoop point ev z k fuel < k + fuel := by
  intro fuel
  induction fuel with
  | zero => intro k z; exact Or.inl rfl
  | succ n ih =>
    intro k z
    simp only [escapeLoop]
    split
    · exact Or.inr (by omega)
    · rcases ih (k + 1) (escapeStep point z) with h | h
      · exact Or.inl h
      · exact Or.inr (by omega)

/-- C5: `escape_iterations` returns the 0-based index of the first iteration at
which the squared magnitude of `z` exceeds `escape_radius²` under the
recurrence `z ← z² + point`, `z₀ = point`; it returns the sentinel `0` when no
index below `max_iterations` escapes; and the result is always `0` or below
`max_iterations`.  In particular, with `max_iterations = 1` an immediately
escaping point reports `0` (first conjunct applied at `i = 0`), colliding with
the sentinel. -/
theorem escape_iterations_contract (point : Complex) (m : ℕ) (R : ℚ) :
    (escape_iterations point m R = 0 ∨ escape_iterations point m R < m) ∧
    (∀ i, i < m → escapes point R i → (∀ j, j < i → ¬ escapes point R j) →
      escape_iterations point m R = i) ∧
    ((∀ i, i < m → ¬ escapes point R i) → escape_iterations point m R = 0) := by
  refine ⟨?_, ?_, ?_⟩
  · have := escapeLoop_range point (R * R) m 0 point
    simpa [escape_iterations] using this
  · intro i him hesc hmin
    have : zSeq point 0 = point := rfl
    rw [escape_iterations, ← this]
    exact escapeLoop_finds point R m 0 i (by omega) (by omega) hesc
      (fun j _ hj => hmin j hj)
  · intro h
    have : zSeq point 0 = point := rfl
    rw [escape_iterations, ← this]
    exact escapeLoop_eq_zero point R m 0 (fun j _ hj => h j (by omega))

/-- Witness for C5: the point `3 + 0i` with escape radius `2` escapes at index
`0` (since `9 > 4`), so with `max_iterations = 1` the function reports `0`. -/
theorem escape_iterations_contract_witness :
    Mandelbrot.escape_iterations ⟨3, 0⟩ 1 2 = 0 :=
  (escape_iterations_contract ⟨3, 0⟩ 1 2).2.1 0 (by omega)
    (by simp only [escapes, zSeq]; norm_num)
    (fun j hj => absurd hj (Nat.not_lt_zero j))

/-! ### Region definition and splitter (`SetDefinition`, main.rs) -/

/-- Structure `SetDefinition` from `main.rs`. -/
structure SetDefinition where
  origin : Complex
  px_size : ℚ
  width_px : ℕ
  height_px : ℕ
  oversampling : ℕ
  max_iterations : ℕ
  escape_radius : ℚ
deriving DecidableEq

instance : Inhabited SetDefinition := ⟨⟨⟨0, 0⟩, 0, 0, 0, 0, 0, 0⟩⟩

/-- Saturating conversion of an `f64` to `u32`, as performed by Rust's `as u32`
cast in `SetDefinition::new`: truncate toward zero, clamping to `[0, 2³² - 1]`.
For a non-negative rational the truncation is the floor. -/
def ratToU32 (q : ℚ) : ℕ :=
  if q < 0 then 0 else min (2 ^ 32 - 1) (Int.toNat ⌊q⌋)

/-- Constructor `SetDefinition::new`: derives `px_size` from the real bounds and the pixel
width, and the pixel height from the imaginary bounds and `px_size`. -/
def SetDefinition.new (min_real max_real min_imag max_imag : ℚ)
    (width_px oversampling max_iterations : ℕ) (escape_radius : ℚ) : SetDefinition :=
  let px_size := (max_real - min_real) / (width_px : ℚ)
  let height_px := (max_imag - min_imag) / px_size
  { origin := ⟨min_real, min_imag⟩
    px_size := px_size
    width_px := width_px
    height_px := ratToU32 height_px
    oversampling := oversampling
    max_iterations := max_iterations
    escape_radius := escape_radius }

/-- The `heights` vector built at the top of `SetDefinition::split`: every
entry starts as `height_px / count` and the loop `for i in 0..rem` increments
the first `height_px % count` entries. -/
def splitHeights (height_px count : ℕ) : List ℕ :=
  (List.range count).map
    (fun i => height_px / count + if i < height_px % count then 1 else 0)

/-- The strip-building loop of `SetDefinition::split`: walks the heights,
carrying the mutable `imag` coordinate, and copies every other field of the
input definition into each strip. -/
def splitGo (d : SetDefinition) : List ℕ → ℚ → List SetDefinition
  | [], _ => []
  | h :: rest, imag =>
    { d with origin := ⟨d.origin.real, imag⟩, height_px := h } ::
      splitGo d rest (imag + (h : ℚ) * d.px_size)

/-- The body of `SetDefinition::split` for a non-zero `count`. -/
def splitBody (d : SetDefinition) (count : ℕ) : List SetDefinition :=
  splitGo d (splitHeights d.height_px count) d.origin.imag

/-- Method `SetDefinition::split`.  For `count = 0` the source evaluates
`self.height_px / count`, a `u32` division by zero, which panics; this is
modelled by `none`. -/
def SetDefinition.split (d : SetDefinition) (count : ℕ) : Option (List SetDefinition) :=
  if count = 0 then none else some (splitBody d count)

theorem splitHeights_length (h c : ℕ) : (splitHeights h c).length = c := by
  simp [splitHeights]

theorem splitHeights_getD (h c k : ℕ) (hk : k < c) :
    (splitHeights h c).getD k 0 = h / c + (if k < h % c then 1 else 0) := by
  simp [splitHeights, List.getD_eq_getElem?_getD, List.getElem?_range hk]

theorem base_extra_sum (b r : ℕ) :
    ∀ n, (List.map (fun i => b + if i < r then 1 else 0) (List.range n)).sum
      = n * b + min n r := by
  intro n
  induction n with
  | zero => simp
  | succ m ih =>
    rw [List.sum_range_succ, ih, Nat.succ_mul]
    split <;> omega

theorem splitHeights_sum (h c : ℕ) (hc : c ≠ 0) : (splitHeights h c).sum = h := by
  rw [splitHeights, base_extra_sum]
  have hrem : h % c < c := Nat.mod_lt _ (by omega)
  have := Nat.div_add_mod h c
  omega

theorem splitGo_length (d : SetDefinition) :
    ∀ (hs : List ℕ) (imag : ℚ), (splitGo d hs imag).length = hs.length := by
  intro hs
  induction hs with
  | nil => intro imag; rfl
  | cons h rest ih => intro imag; simp [splitGo, ih]

theorem splitGo_map_height (d : SetDefinition) :
    ∀ (hs : List ℕ) (imag : ℚ),
      (splitGo d hs imag).map SetDefinition.height_px = hs := by
  intro hs
  induction hs with
  | nil => intro imag; rfl
  | cons h rest ih => intro imag; simp [splitGo, ih]

/-- The total imaginary-coordinate advance contributed by a list of strip
heights: each height advances `imag` by `height * px_size`. -/
def scaledSum (px : ℚ) (hs : List ℕ) : ℚ :=
  (hs.map (fun h : ℕ => (h : ℚ) * px)).sum

@[simp] theorem scaledSum_nil (px : ℚ) : scaledSum px [] = 0 := rfl

@[simp] theorem scaledSum_cons (px : ℚ) (h : ℕ) (hs : List ℕ) :
    scaledSum px (h :: hs) = (h : ℚ) * px + scaledSum px hs := by
  simp [scaledSum]

theorem splitGo_getD (d : SetDefinition) :
    ∀ (hs : List ℕ) (imag : ℚ) (k : ℕ), k < hs.length →
      (splitGo d hs imag).getD k default =
        { d with
            origin := ⟨d.origin.real, imag + scaledSum d.px_size (hs.take k)⟩,
            height_px := hs.getD k 0 } := by
  intro hs
  induction hs with
  | nil => intro imag k hk; simp at hk
  | cons h rest ih =>
    intro imag k hk
    cases k with
    | zero => simp [splitGo]
    | succ m =>
      have hm : m < rest.length := by simpa using hk
      simp only [splitGo, List.getD_cons_succ, List.take_succ_cons, scaledSum_cons]
      rw [ih (imag + (h : ℚ) * d.px_size) m hm]
      congr 2
      ring

/-- C4: for every region and `count ≥ 1` (modelled: `split` succeeds), the
strip heights of `split(region, count)` sum exactly to `height_px`, and strip
`k` has height `height_px / count` plus one extra row exactly when
`k < height_px % count` — so exactly `height_px mod count` strips get an extra
row, at the lowest indices. -/
theorem split_heights_distribution (d : SetDefinition) (count : ℕ)
    (strips : List SetDefinition) (h : d.split count = some strips) :
    strips.length = count ∧
    (strips.map SetDefinition.height_px).sum = d.height_px ∧
    ∀ k, k < count →
      (strips.getD k default).height_px =
        d.height_px / count + (if k < d.height_px % count then 1 else 0) := by
  have hc : count ≠ 0 := by
    intro h0
    rw [SetDefinition.split, if_pos h0] at h
    exact Option.noConfusion h
  rw [SetDefinition.split, if_neg hc] at h
  have hb : strips = splitBody d count := by
    exact (Option.some.injEq _ _ ▸ h.symm)
  subst hb
  refine ⟨?_, ?_, ?_⟩
  · rw [splitBody, splitGo_length, splitHeights_length]
  · rw [splitBody, splitGo_map_height, splitHeights_sum d.height_px count hc]
  · intro k hk
    have hk' : k < (splitHeights d.height_px count).length := by
      rw [splitHeights_length]; exact hk
    rw [splitBody, splitGo_getD d _ _ k hk']
    simp only
    exact splitHeights_getD d.height_px count k hk

/-- Witness for C4, using the `split_with_remainder` unit test from `main.rs`:
a 100-row region split in 3 gives strips of heights 34, 33, 33. -/
theorem split_heights_distribution_witness :
    (SetDefinition.split ⟨⟨1, 2⟩, 1/100, 200, 100, 2, 100, 2⟩ 3 =
      some (splitBody ⟨⟨1, 2⟩, 1/100, 200, 100, 2, 100, 2⟩ 3)) ∧
    ((splitBody ⟨⟨1, 2⟩, 1/100, 200, 100, 2, 100, 2⟩ 3).map
      SetDefinition.height_px).sum = 100 :=
  ⟨rfl, (split_heights_distribution ⟨⟨1, 2⟩, 1/100, 200, 100, 2, 100, 2⟩ 3 _ rfl).2.1⟩

theorem take_succ_scaledSum (px : ℚ) (hs : List ℕ) (k : ℕ) (hk : k < hs.length) :
    scaledSum px (hs.take (k + 1)) = scaledSum px (hs.take k) + (hs.getD k 0 : ℚ) * px := by
  rw [List.take_succ, scaledSum, List.map_append, List.sum_append]
  have : hs[k]? = some (hs.getD k 0) := by
    rw [List.getD_eq_getElem?_getD, List.getElem?_eq_getElem hk]
    rfl
  rw [this]
  simp [scaledSum]

/-- C9: every strip produced by `split` keeps `px_size`, `width_px`,
`oversampling`, `max_iterations`, `escape_radius` and `origin.real` from the
input region; only `origin.imag` and `height_px` change.  The first strip
starts at the region's own origin, and each later strip's `origin.imag` is the
previous strip's `origin.imag` advanced by `previous_height * px_size`, so the
strips are stacked bottom-to-top in imaginary-coordinate order. -/
theorem split_strip_frames (d : SetDefinition) (count : ℕ)
    (strips : List SetDefinition) (h : d.split count = some strips) :
    (∀ k, k < count →
      (strips.getD k default).px_size = d.px_size ∧
      (strips.getD k default).width_px = d.width_px ∧
      (strips.getD k default).oversampling = d.oversampling ∧
      (strips.getD k default).max_iterations = d.max_iterations ∧
      (strips.getD k default).escape_radius = d.escape_radius ∧
      (strips.getD k default).origin.real = d.origin.real) ∧
    (0 < count → (strips.getD 0 default).origin.imag = d.origin.imag) ∧
    (∀ k, k + 1 < count →
      (strips.getD (k + 1) default).origin.imag =
        (strips.getD k default).origin.imag +
          ((strips.getD k default).height_px : ℚ) * d.px_size) := by
  have hc : count ≠ 0 := by
    intro h0
    rw [SetDefinition.split, if_pos h0] at h
    exact Option.noConfusion h
  rw [SetDefinition.split, if_neg hc] at h
  have hb : strips = splitBody d count := (Option.some.injEq _ _ ▸ h.symm)
  subst hb
  have hlen : ∀ k, k < count → k < (splitHeights d.height_px count).length := by
    intro k hk; rw [splitHeights_length]; exact hk
  refine ⟨?_, ?_, ?_⟩
  · intro k hk
    rw [splitBody, splitGo_getD d _ _ k (hlen k hk)]
    exact ⟨rfl, rfl, rfl, rfl, rfl, rfl⟩
  · intro h0
    rw [splitBody, splitGo_getD d _ _ 0 (hlen 0 h0)]
    simp
  · intro k hk
    rw [splitBody, splitGo_getD d _ _ k (hlen k (by omega)),
      splitGo_getD d _ _ (k + 1) (hlen (k + 1) hk)]
    simp only
    rw [take_succ_scaledSum d.px_size _ k (hlen k (by omega))]
    ring

/-- Witness for C9, on the `split_with_remainder` test region: the second of
three strips starts one first-strip-height above the region origin. -/
theorem split_strip_frames_witness :
    ((splitBody ⟨⟨1, 2⟩, 1/100, 200, 100, 2, 100, 2⟩ 3).getD 1 default).origin.imag =
      ((splitBody ⟨⟨1, 2⟩, 1/100, 200, 100, 2, 100, 2⟩ 3).getD 0 default).origin.imag +
        (((splitBody ⟨⟨1, 2⟩, 1/100, 200, 100, 2, 100, 2⟩ 3).getD 0 default).height_px : ℚ)
          * (1/100) :=
  (split_strip_frames ⟨⟨1, 2⟩, 1/100, 200, 100, 2, 100, 2⟩ 3 _ rfl).2.2 0 (by omega)

/-! ### Construction of a region from user-facing bounds (C3) -/

/-- C3 counterexample: for the bounds `min_real = 0`, `max_real = 1`,
`min_imag = 0`, `max_imag = 3/4` and `width_px = 2` (all exactly representable
in `f64`, with every derived operation exact), the derived pixel size is `1/2`
and the height quotient is `3/2`: the code truncates it to `1`, while the
claimed rounding would give `2`. -/
theorem new_height_truncation_counterexample :
    (SetDefinition.new 0 1 0 (3/4) 2 1 1 2).height_px = 1 ∧
    round (((3/4 : ℚ) - 0) / (((1 : ℚ) - 0) / 2)) = 2 ∧ (1 : ℕ) ≠ 2 := by
  have hq : ((3/4 : ℚ) - 0) / (((1 : ℚ) - 0) / 2) = 3/2 := by norm_num
  have hfloor : ⌊(3/2 : ℚ)⌋ = 1 := by
    rw [Int.floor_eq_iff]
    norm_num
  refine ⟨?_, ?_, by omega⟩
  · show ratToU32 (((3/4 : ℚ) - 0) / (((1 : ℚ) - 0) / 2)) = 1
    rw [hq, ratToU32, if_neg (by norm_num), hfloor]
    omega
  · rw [hq, round_eq]
    norm_num

/-- C3 as amended: at construction, `px_size = (max_real - min_real)/width_px`
and `height_px` is the quotient `(max_imag - min_imag)/px_size` truncated
toward zero (the floor, for a non-negative quotient in range), not rounded to
the nearest integer. -/
theorem new_derived_fields (min_real max_real min_imag max_imag : ℚ)
    (width_px oversampling max_iterations : ℕ) (escape_radius : ℚ)
    (hq0 : 0 ≤ (max_imag - min_imag) / ((max_real - min_real) / (width_px : ℚ)))
    (hqlt : (max_imag - min_imag) / ((max_real - min_real) / (width_px : ℚ)) < 2 ^ 32) :
    (SetDefinition.new min_real max_real min_imag max_imag
        width_px oversampling max_iterations escape_radius).px_size =
      (max_real - min_real) / (width_px : ℚ) ∧
    (SetDefinition.new min_real max_real min_imag max_imag
        width_px oversampling max_iterations escape_radius).height_px =
      Int.toNat ⌊(max_imag - min_imag) / ((max_real - min_real) / (width_px : ℚ))⌋ := by
  refine ⟨rfl, ?_⟩
  show ratToU32 _ = _
  rw [ratToU32, if_neg (not_lt.mpr hq0)]
  have hfl : ⌊(max_imag - min_imag) / ((max_real - min_real) / (width_px : ℚ))⌋ < 2 ^ 32 := by
    rw [Int.floor_lt]
    exact hqlt.trans_le (by norm_num)
  omega

/-- Witness for C3's amended theorem at the counterexample input: the quotient
`3/2` is in range and the constructed height is `⌊3/2⌋ = 1`. -/
theorem new_derived_fields_witness :
    (SetDefinition.new 0 1 0 (3/4) 2 1 1 2).px_size = ((1 : ℚ) - 0) / 2 ∧
    (SetDefinition.new 0 1 0 (3/4) 2 1 1 2).height_px =
      Int.toNat ⌊((3/4 : ℚ) - 0) / (((1 : ℚ) - 0) / 2)⌋ :=
  new_derived_fields 0 1 0 (3/4) 2 1 1 2 (by norm_num) (by norm_num)

/-! ### Palette generator (`palette`, colour.rs) -/

/-- Function `relative_vectors` from `colour.rs`: the vector from each vertex to the
next, `windows(2).map(|w| w[1] - w[0])`; one element shorter than the input. -/
def relative_vectors (vertices : List Vector3d) : List Vector3d :=
  if vertices.length < 2 then []
  else List.zipWith (fun a b => b - a) vertices vertices.tail

/-- The body of `palette` (colour.rs) for inputs passing the two guards:
`num_cols = size - 1` gaps are distributed over `num_segs = len - 1` segments
(`cols_per_seg = num_cols / num_segs` each, the first `num_cols % num_segs`
segments getting one more); the output starts with `colours[0]` and the loop
over segments pushes, for segment `i`, the interior colours
`from_vector3d(start + col_vec * c)` for `c = 1 .. seg_sizes[i] - 1` with
`col_vec = rel_vecs[i] / cols_per_seg`, followed by `colours[i+1]` verbatim. -/
def paletteBody (size : ℕ) (colours : List Colour) : List Colour :=
  let num_cols := size - 1
  let vertices := colours.map Vector3d.from_colour
  let rel_vecs := relative_vectors vertices
  let num_segs := colours.length - 1
  let cols_per_seg := num_cols / num_segs
  let remainder := num_cols % num_segs
  let seg_sizes := (List.range num_segs).map
    (fun i => cols_per_seg + if i < remainder then 1 else 0)
  colours.getD 0 default ::
    (List.range rel_vecs.length).flatMap (fun i =>
      let start := vertices.getD i 0
      let vec := rel_vecs.getD i 0
      let col_vec := vec / (cols_per_seg : ℚ)
      ((List.range' 1 (seg_sizes.getD i 0 - 1)).map
        (fun c : ℕ => Colour.from_vector3d (start + col_vec * (c : ℚ))))
        ++ [colours.getD (i + 1) default])

/-- Function `palette` from `colour.rs`: panics (modelled as `none`) when fewer than two
vertex colours are supplied, or when `size` is below the vertex count. -/
def palette (size : ℕ) (colours : List Colour) : Option (List Colour) :=
  if colours.length < 2 then none
  else if size < colours.length then none
  else some (paletteBody size colours)

/-- Base gaps per leg given by the remainder-distribution rule. -/
def colsPerSeg (size n : ℕ) : ℕ := (size - 1) / (n - 1)

/-- Number of legs receiving one extra gap. -/
def segRemainder (size n : ℕ) : ℕ := (size - 1) % (n - 1)

/-- Gap count of leg `i` under the remainder-distribution rule. -/
def segSize (size n i : ℕ) : ℕ :=
  colsPerSeg size n + if i < segRemainder size n then 1 else 0

/-- Predicted palette index of vertex `j` under the remainder-distribution
rule. -/
def vertexIdx (size n j : ℕ) : ℕ :=
  j * colsPerSeg size n + min j (segRemainder size n)

/-- The colours pushed for leg `i` of the palette loop: the interior colours
followed by the leg's end vertex. -/
def legColours (size : ℕ) (colours : List Colour) (i : ℕ) : List Colour :=
  ((List.range' 1 (segSize size colours.length i - 1)).map
    (fun c : ℕ => Colour.from_vector3d
      (Vector3d.from_colour (colours.getD i default) +
        ((Vector3d.from_colour (colours.getD (i + 1) default) -
          Vector3d.from_colour (colours.getD i default)) /
            (colsPerSeg size colours.length : ℚ)) * (c : ℚ))))
    ++ [colours.getD (i + 1) default]

theorem base_extra_getD (b r n k : ℕ) (hk : k < n) :
    ((List.range n).map (fun i => b + if i < r then 1 else 0)).getD k 0
      = b + if k < r then 1 else 0 := by
  simp [List.getD_eq_getElem?_getD, List.getElem?_range hk]

theorem getD_append_right_of_le {α : Type} (l L : List α) (d : α) (n : ℕ)
    (h : l.length ≤ n) : (l ++ L).getD n d = L.getD (n - l.length) d := by
  rw [List.getD_eq_getElem?_getD, List.getElem?_append, if_neg (by omega),
    ← List.getD_eq_getElem?_getD]

theorem flatten_getD_sum {α : Type} (d : α) :
    ∀ (ls : List (List α)) (k t : ℕ), t < (ls.getD k []).length →
      ls.flatten.getD ((((ls.take k).map List.length).sum) + t) d
        = (ls.getD k []).getD t d := by
  intro ls
  induction ls with
  | nil =>
    intro k t ht
    rw [List.getD_eq_getElem?_getD] at ht ⊢
    cases k <;> simp at ht
  | cons l rest ih =>
    intro k t ht
    cases k with
    | zero =>
      simp only [List.take_zero, List.map_nil, List.sum_nil, Nat.zero_add,
        List.flatten_cons, List.getD_cons_zero] at ht ⊢
      exact List.getD_append _ _ d t (by simpa using ht)
    | succ m =>
      simp only [List.take_succ_cons, List.map_cons, List.sum_cons,
        List.flatten_cons, List.getD_cons_succ] at ht ⊢
      rw [getD_append_right_of_le _ _ _ _ (by omega)]
      have harith : l.length + ((rest.take m).map List.length).sum + t - l.length
          = ((rest.take m).map List.length).sum + t := by omega
      rw [harith]
      exact ih m t ht

theorem zipWith_sub_getD :
    ∀ (i : ℕ) (vs : List Vector3d), i + 1 < vs.length →
      (List.zipWith (fun a b => b - a) vs vs.tail).getD i 0
        = vs.getD (i + 1) 0 - vs.getD i 0 := by
  intro i
  induction i with
  | zero =>
    intro vs h
    match vs with
    | [] => simp at h
    | [a] => simp at h
    | a :: b :: rest => rfl
  | succ m ih =>
    intro vs h
    match vs with
    | [] => simp at h
    | [a] => simp at h
    | a :: b :: rest =>
      have : (a :: b :: rest).tail = b :: rest := rfl
      rw [this, List.zipWith_cons_cons, List.getD_cons_succ, List.getD_cons_succ,
        List.getD_cons_succ]
      have hb : (b :: rest).tail = rest := rfl
      rw [← hb]
      exact ih (b :: rest) (by simpa using h)

theorem relative_vectors_length (vs : List Vector3d) (h : 2 ≤ vs.length) :
    (relative_vectors vs).length = vs.length - 1 := by
  rw [relative_vectors, if_neg (by omega), List.length_zipWith, List.length_tail]
  omega

theorem relative_vectors_getD (vs : List Vector3d) (i : ℕ) (h2 : 2 ≤ vs.length)
    (hi : i + 1 < vs.length) :
    (relative_vectors vs).getD i 0 = vs.getD (i + 1) 0 - vs.getD i 0 := by
  rw [relative_vectors, if_neg (by omega)]
  exact zipWith_sub_getD i vs hi

theorem from_colour_default : Vector3d.from_colour default = 0 := by
  show Vector3d.from_colour ⟨0, 0, 0⟩ = 0
  simp [Vector3d.from_colour, Vector3d.ext_iff]

theorem map_range_getD {α : Type} (f : ℕ → α) (N k : ℕ) (d : α) (h : k < N) :
    ((List.range N).map f).getD k d = f k := by
  simp [List.getD_eq_getElem?_getD, List.getElem?_range h]

theorem paletteBody_eq (size : ℕ) (colours : List Colour) (h2 : 2 ≤ colours.length) :
    paletteBody size colours =
      colours.getD 0 default ::
        ((List.range (colours.length - 1)).map (legColours size colours)).flatten := by
  have hvlen : (colours.map Vector3d.from_colour).length = colours.length := by simp
  have hrlen : (relative_vectors (colours.map Vector3d.from_colour)).length
      = colours.length - 1 := by
    rw [relative_vectors_length _ (by omega), hvlen]
  have hv : ∀ j, (colours.map Vector3d.from_colour).getD j 0
      = Vector3d.from_colour (colours.getD j default) := by
    intro j
    rw [← from_colour_default, List.getD_map]
  simp only [paletteBody]
  rw [hrlen, List.flatMap_def]
  congr 1
  congr 1
  apply List.map_congr_left
  intro i hi
  have hi' : i < colours.length - 1 := by simpa using hi
  rw [base_extra_getD _ _ _ _ hi',
    relative_vectors_getD _ _ (by omega) (by rw [hvlen]; omega)]
  simp only [hv]
  rfl

theorem colsPerSeg_pos (size n : ℕ) (h2 : 2 ≤ n) (hsize : n ≤ size) :
    1 ≤ colsPerSeg size n := by
  rw [colsPerSeg, Nat.one_le_div_iff (by omega)]
  omega

theorem segSize_pos (size n i : ℕ) (h2 : 2 ≤ n) (hsize : n ≤ size) :
    1 ≤ segSize size n i := by
  have := colsPerSeg_pos size n h2 hsize
  rw [segSize]
  split <;> omega

theorem legColours_length (size : ℕ) (colours : List Colour) (i : ℕ)
    (h2 : 2 ≤ colours.length) (hsize : colours.length ≤ size) :
    (legColours size colours i).length = segSize size colours.length i := by
  have := segSize_pos size colours.length i h2 hsize
  simp only [legColours, List.length_append, List.length_map, List.length_range',
    List.length_singleton]
  omega

theorem vertexIdx_succ (size n j : ℕ) :
    vertexIdx size n (j + 1) = vertexIdx size n j + segSize size n j := by
  simp only [vertexIdx, segSize, Nat.succ_mul]
  rcases lt_or_ge j (segRemainder size n) with h | h
  · rw [if_pos h]
    omega
  · rw [if_neg (by omega)]
    omega

theorem legs_take_sum (size : ℕ) (colours : List Colour) (k : ℕ)
    (h2 : 2 ≤ colours.length) (hsize : colours.length ≤ size)
    (hk : k ≤ colours.length - 1) :
    ((((List.range (colours.length - 1)).map (legColours size colours)).take k).map
      List.length).sum = vertexIdx size colours.length k := by
  rw [← List.map_take, List.take_range, min_eq_left hk, List.map_map]
  have hcongr : (List.range k).map (List.length ∘ legColours size colours)
      = (List.range k).map (fun i => colsPerSeg size colours.length +
          if i < segRemainder size colours.length then 1 else 0) := by
    apply List.map_congr_left
    intro i _
    show (legColours size colours i).length = _
    rw [legColours_length size colours i h2 hsize]
    rfl
  rw [hcongr, base_extra_sum]
  rfl

theorem paletteBody_getD (size : ℕ) (colours : List Colour) (k t : ℕ)
    (h2 : 2 ≤ colours.length) (hsize : colours.length ≤ size)
    (hk : k < colours.length - 1) (ht : t < segSize size colours.length k) :
    (paletteBody size colours).getD (vertexIdx size colours.length k + t + 1) default
      = (legColours size colours k).getD t default := by
  rw [paletteBody_eq size colours h2]
  have hgd : ((List.range (colours.length - 1)).map (legColours size colours)).getD k []
      = legColours size colours k := map_range_getD _ _ _ _ hk
  have ht' : t < (((List.range (colours.length - 1)).map
      (legColours size colours)).getD k []).length := by
    rw [hgd, legColours_length size colours k h2 hsize]
    exact ht
  have hmain := flatten_getD_sum default
    ((List.range (colours.length - 1)).map (legColours size colours)) k t ht'
  rw [legs_take_sum size colours k h2 hsize (by omega), hgd] at hmain
  calc (colours.getD 0 default ::
        ((List.range (colours.length - 1)).map (legColours size colours)).flatten).getD
          (vertexIdx size colours.length k + t + 1) default
      = ((List.range (colours.length - 1)).map
          (legColours size colours)).flatten.getD
            (vertexIdx size colours.length k + t) default := List.getD_cons_succ
    _ = (legColours size colours k).getD t default := hmain

theorem segRemainder_lt (size n : ℕ) (h2 : 2 ≤ n) : segRemainder size n < n - 1 :=
  Nat.mod_lt _ (by omega)

theorem vertexIdx_last (size n : ℕ) (h2 : 2 ≤ n) (hsize : n ≤ size) :
    vertexIdx size n (n - 1) = size - 1 := by
  have hrem := segRemainder_lt size n h2
  have hdm := Nat.div_add_mod (size - 1) (n - 1)
  rw [vertexIdx, min_eq_right (by omega)]
  rw [colsPerSeg, segRemainder] at *
  omega

theorem paletteBody_length (size : ℕ) (colours : List Colour)
    (h2 : 2 ≤ colours.length) (hsize : colours.length ≤ size) :
    (paletteBody size colours).length = size := by
  rw [paletteBody_eq size colours h2]
  rw [List.length_cons, List.length_flatten]
  have htake : ((List.range (colours.length - 1)).map (legColours size colours)).take
      (colours.length - 1) = (List.range (colours.length - 1)).map
        (legColours size colours) := by
    apply List.take_of_length_le
    simp
  have := legs_take_sum size colours (colours.length - 1) h2 hsize le_rfl
  rw [htake] at this
  rw [this, vertexIdx_last size colours.length h2 hsize]
  omega

theorem palette_eq_some (size : ℕ) (colours : List Colour)
    (h2 : 2 ≤ colours.length) (hsize : colours.length ≤ size) :
    palette size colours = some (paletteBody size colours) := by
  rw [palette, if_neg (by omega), if_neg (by omega)]

theorem vertexIdx_zero (size n : ℕ) : vertexIdx size n 0 = 0 := by
  simp [vertexIdx]

theorem legColours_getD_last (size : ℕ) (colours : List Colour) (i : ℕ) :
    (legColours size colours i).getD (segSize size colours.length i - 1) default
      = colours.getD (i + 1) default := by
  rw [legColours, getD_append_right_of_le _ _ _ _ (by simp [List.length_range'])]
  simp [List.length_range']

theorem legColours_getD_interior (size : ℕ) (colours : List Colour) (i c : ℕ)
    (hc1 : 1 ≤ c) (hc2 : c < segSize size colours.length i) :
    (legColours size colours i).getD (c - 1) default
      = Colour.from_vector3d
          (Vector3d.from_colour (colours.getD i default) +
            ((Vector3d.from_colour (colours.getD (i + 1) default) -
              Vector3d.from_colour (colours.getD i default)) /
                (colsPerSeg size colours.length : ℚ)) * (c : ℚ)) := by
  simp only [legColours, List.getD_eq_getElem?_getD, List.getElem?_append,
    List.length_map, List.length_range']
  rw [if_pos (by omega : c - 1 < segSize size colours.length i - 1)]
  rw [List.getElem?_map]
  have hr := List.getElem?_range' 1 1
    (show c - 1 < segSize size colours.length i - 1 by omega)
  rw [hr]
  have h1 : 1 + 1 * (c - 1) = c := by omega
  rw [h1]
  rfl

theorem paletteBody_vertex (size : ℕ) (colours : List Colour) (j : ℕ)
    (h2 : 2 ≤ colours.length) (hsize : colours.length ≤ size) (hj : j < colours.length) :
    (paletteBody size colours).getD (vertexIdx size colours.length j) default
      = colours.getD j default := by
  cases j with
  | zero =>
    rw [vertexIdx_zero, paletteBody_eq size colours h2]
    rfl
  | succ m =>
    have hm : m < colours.length - 1 := by omega
    have hseg := segSize_pos size colours.length m h2 hsize
    have hmain := paletteBody_getD size colours m (segSize size colours.length m - 1)
      h2 hsize hm (by omega)
    have hidx : vertexIdx size colours.length m + (segSize size colours.length m - 1) + 1
        = vertexIdx size colours.length (m + 1) := by
      rw [vertexIdx_succ]
      omega
    rw [hidx] at hmain
    rw [hmain, legColours_getD_last]

/-- C6: for every vertex list with at least 2 colours and every
`size ≥ vertices.len()`, `palette(size, vertices)` returns exactly `size`
colours; the first output colour is the first vertex, the last output colour
is the last vertex, and every vertex `j` appears unchanged at its predicted
index `j * cols_per_seg + min j remainder` given by the remainder-distribution
rule. -/
theorem palette_visits_vertices (size : ℕ) (colours : List Colour) (p : List Colour)
    (h2 : 2 ≤ colours.length) (hsize : colours.length ≤ size)
    (hp : palette size colours = some p) :
    p.length = size ∧
    p.getD 0 default = colours.getD 0 default ∧
    p.getD (size - 1) default = colours.getD (colours.length - 1) default ∧
    ∀ j, j < colours.length →
      p.getD (vertexIdx size colours.length j) default = colours.getD j default := by
  have hpb : p = paletteBody size colours := by
    rw [palette_eq_some size colours h2 hsize] at hp
    exact (Option.some.injEq _ _ ▸ hp.symm)
  subst hpb
  refine ⟨paletteBody_length size colours h2 hsize, ?_, ?_, ?_⟩
  · have := paletteBody_vertex size colours 0 h2 hsize (by omega)
    rwa [vertexIdx_zero] at this
  · have := paletteBody_vertex size colours (colours.length - 1) h2 hsize (by omega)
    rwa [vertexIdx_last size colours.length h2 hsize] at this
  · intro j hj
    exact paletteBody_vertex size colours j h2 hsize hj

/-- Witness for C6 on the `palette_3_colours_along_axes` unit test input
(`size = 11`, three vertices): middle vertex at predicted index 5. -/
theorem palette_visits_vertices_witness :
    (paletteBody 11 [⟨0,0,0⟩, ⟨255,0,0⟩, ⟨255,255,0⟩]).length = 11 ∧
    (paletteBody 11 [⟨0,0,0⟩, ⟨255,0,0⟩, ⟨255,255,0⟩]).getD
        (vertexIdx 11 3 1) default
      = ([⟨0,0,0⟩, ⟨255,0,0⟩, ⟨255,255,0⟩] : List Colour).getD 1 default := by
  have h := palette_visits_vertices 11 [⟨0,0,0⟩, ⟨255,0,0⟩, ⟨255,255,0⟩]
    (paletteBody 11 [⟨0,0,0⟩, ⟨255,0,0⟩, ⟨255,255,0⟩]) (by decide) (by decide) rfl
  exact ⟨h.1, h.2.2.2 1 (by decide)⟩

/-- C1 as amended: within leg `i`, the interior colour at step
`c = 1 .. seg_sizes[i] - 1` is
`colour_from_vector(start + (leg_vector / cols_per_seg) * c)` where the
divisor is the BASE gap count `cols_per_seg = floor((size-1)/segments)` for
every leg — not the leg's own gap count `seg_sizes[i]` — and the leg's end
vertex is then appended verbatim at the next predicted vertex index.  (The
original claim, refuted by `palette_leg_divisor_counterexample`, used the
per-leg gap count as divisor.) -/
theorem palette_leg_interpolation (size : ℕ) (colours : List Colour) (p : List Colour)
    (h2 : 2 ≤ colours.length) (hsize : colours.length ≤ size)
    (hp : palette size colours = some p) (i c : ℕ) (hi : i < colours.length - 1)
    (hc1 : 1 ≤ c) (hc2 : c < segSize size colours.length i) :
    p.getD (vertexIdx size colours.length i + c) default =
      Colour.from_vector3d
        (Vector3d.from_colour (colours.getD i default) +
          ((Vector3d.from_colour (colours.getD (i + 1) default) -
            Vector3d.from_colour (colours.getD i default)) /
              (colsPerSeg size colours.length : ℚ)) * (c : ℚ)) ∧
    p.getD (vertexIdx size colours.length (i + 1)) default
      = colours.getD (i + 1) default := by
  have hpb : p = paletteBody size colours := by
    rw [palette_eq_some size colours h2 hsize] at hp
    exact (Option.some.injEq _ _ ▸ hp.symm)
  subst hpb
  constructor
  · have hmain := paletteBody_getD size colours i (c - 1) h2 hsize hi (by omega)
    have hidx : vertexIdx size colours.length i + (c - 1) + 1
        = vertexIdx size colours.length i + c := by omega
    rw [hidx] at hmain
    rw [hmain, legColours_getD_interior size colours i c hc1 hc2]
  · exact paletteBody_vertex size colours (i + 1) h2 hsize (by omega)

/-- Witness for C1's amended theorem on the `palette_3_colours_along_axes`
test input: leg 0 of `palette(11, ...)`, interpolation step 1. -/
theorem palette_leg_interpolation_witness :
    (paletteBody 11 [⟨0,0,0⟩, ⟨255,0,0⟩, ⟨255,255,0⟩]).getD
        (vertexIdx 11 3 0 + 1) default =
      Colour.from_vector3d
        (Vector3d.from_colour (⟨0,0,0⟩ : Colour) +
          ((Vector3d.from_colour (⟨255,0,0⟩ : Colour) -
            Vector3d.from_colour (⟨0,0,0⟩ : Colour)) /
              (colsPerSeg 11 3 : ℚ)) * (1 : ℚ)) ∧
    (paletteBody 11 [⟨0,0,0⟩, ⟨255,0,0⟩, ⟨255,255,0⟩]).getD
        (vertexIdx 11 3 1) default = ⟨255,0,0⟩ :=
  palette_leg_interpolation 11 [⟨0,0,0⟩, ⟨255,0,0⟩, ⟨255,255,0⟩]
    (paletteBody 11 [⟨0,0,0⟩, ⟨255,0,0⟩, ⟨255,255,0⟩]) (by decide) (by decide) rfl
    0 1 (by decide) (by decide) (by decide)

theorem from_colour_mk (a b c : Fin 256) :
    Vector3d.from_colour ⟨a, b, c⟩ = ⟨((a : ℕ) : ℚ), ((b : ℕ) : ℚ), ((c : ℕ) : ℚ)⟩ := rfl

theorem from_vector3d_of_eq (v : Vector3d) (a b c : ℕ)
    (ha : v.x = (a : ℚ)) (hb : v.y = (b : ℚ)) (hc : v.z = (c : ℚ))
    (h1 : a ≤ 255) (h2 : b ≤ 255) (h3 : c ≤ 255) :
    Colour.from_vector3d v = ⟨⟨a, by omega⟩, ⟨b, by omega⟩, ⟨c, by omega⟩⟩ := by
  rw [Colour.from_vector3d, ha, hb, hc, ratToU8_natCast a h1, ratToU8_natCast b h2,
    ratToU8_natCast c h3]

/-- C1 counterexample: take `size = 4` and the vertex list
`(0,0,0), (100,0,0), (200,0,0)`.  There are `segments = 2` legs and
`size - 1 = 3` gaps, so by the remainder-distribution rule leg 0's own gap
count is `seg_sizes[0] = 2` (base `floor(3/2) = 1` plus one extra).  The claim
predicts the interior colour at step 1 of leg 0 (palette index 1, just after
the first vertex) to be
`colour_from_vector(start + (leg_vector / 2) * 1) = (50,0,0)`, but the code
divides the leg vector by the base gap count `cols_per_seg = 1` for every leg
and actually produces `(100,0,0)`.  Every `f64` operation involved is exact at
this input, so the rational model is faithful here. -/
theorem palette_leg_divisor_counterexample :
    palette 4 [⟨0,0,0⟩, ⟨100,0,0⟩, ⟨200,0,0⟩]
      = some (paletteBody 4 [⟨0,0,0⟩, ⟨100,0,0⟩, ⟨200,0,0⟩]) ∧
    segSize 4 3 0 = 2 ∧
    (paletteBody 4 [⟨0,0,0⟩, ⟨100,0,0⟩, ⟨200,0,0⟩]).getD
        (vertexIdx 4 3 0 + 1) default = ⟨100,0,0⟩ ∧
    Colour.from_vector3d
      (Vector3d.from_colour (⟨0,0,0⟩ : Colour) +
        ((Vector3d.from_colour (⟨100,0,0⟩ : Colour) -
          Vector3d.from_colour (⟨0,0,0⟩ : Colour)) /
            (segSize 4 3 0 : ℚ)) * (1 : ℚ)) = ⟨50,0,0⟩ ∧
    (⟨100,0,0⟩ : Colour) ≠ ⟨50,0,0⟩ := by
  have hfin0 : ((0 : Fin 256) : ℕ) = 0 := rfl
  have hfin100 : ((100 : Fin 256) : ℕ) = 100 := rfl
  refine ⟨rfl, rfl, ?_, ?_, by decide⟩
  · have hmain := paletteBody_getD 4 [⟨0,0,0⟩, ⟨100,0,0⟩, ⟨200,0,0⟩] 0 0
      (by decide) (by decide) (by decide) (by decide)
    have hint := legColours_getD_interior 4 [⟨0,0,0⟩, ⟨100,0,0⟩, ⟨200,0,0⟩] 0 1
      (by decide) (by decide)
    rw [show vertexIdx 4 3 0 + 1 = vertexIdx 4
      ([⟨0,0,0⟩, ⟨100,0,0⟩, ⟨200,0,0⟩] : List Colour).length 0 + 0 + 1 from rfl, hmain]
    rw [show (0 : ℕ) = 1 - 1 from rfl, hint]
    apply from_vector3d_of_eq _ 100 0 0 <;>
      simp [from_colour_mk, hfin0, hfin100,
        show ((colsPerSeg 4 3 : ℕ) : ℚ) = 1 by norm_num [colsPerSeg]]
  · apply from_vector3d_of_eq _ 50 0 0 <;>
      simp [from_colour_mk, hfin0, hfin100,
        show ((segSize 4 3 0 : ℕ) : ℚ) = 2 by norm_num [segSize, colsPerSeg, segRemainder]] <;>
      norm_num

/-- C8: invalid configurations are rejected eagerly at entry: `palette`
fails (panics, modelled as `none`) exactly when the vertex list has fewer than
two colours or `size` is below the vertex count, and returns normally
otherwise; and `split(region, 0)` never returns normally (the `u32` division
`height_px / 0` panics) for any region. -/
theorem invalid_config_rejected :
    (∀ (size : ℕ) (colours : List Colour),
      colours.length < 2 ∨ size < colours.length → palette size colours = none) ∧
    (∀ (size : ℕ) (colours : List Colour),
      2 ≤ colours.length → colours.length ≤ size → (palette size colours).isSome) ∧
    (∀ d : SetDefinition, d.split 0 = none) := by
  refine ⟨?_, ?_, ?_⟩
  · rintro size colours (h | h)
    · rw [palette, if_pos h]
    · rcases lt_or_ge colours.length 2 with h2 | h2
      · rw [palette, if_pos h2]
      · rw [palette, if_neg (by omega), if_pos h]
  · intro size colours h2 hs
    rw [palette_eq_some size colours h2 hs]
    rfl
  · intro d
    rw [SetDefinition.split, if_pos rfl]

/-- Witness for C8: a one-vertex palette and an undersized palette are
rejected, a valid two-vertex palette of size 2 is produced, and splitting any
concrete region into 0 strips fails. -/
theorem invalid_config_rejected_witness :
    palette 5 [⟨0,0,0⟩] = none ∧
    palette 1 [⟨0,0,0⟩, ⟨255,255,255⟩] = none ∧
    (palette 2 [⟨0,0,0⟩, ⟨255,255,255⟩]).isSome ∧
    SetDefinition.split ⟨⟨0, 0⟩, 1, 1, 1, 1, 1, 1⟩ 0 = none :=
  ⟨invalid_config_rejected.1 5 [⟨0,0,0⟩] (Or.inl (by decide)),
   invalid_config_rejected.1 1 [⟨0,0,0⟩, ⟨255,255,255⟩] (Or.inr (by decide)),
   invalid_config_rejected.2.1 2 [⟨0,0,0⟩, ⟨255,255,255⟩] (by decide) (by decide),
   invalid_config_rejected.2.2 ⟨⟨0, 0⟩, 1, 1, 1, 1, 1, 1⟩⟩

/-! ### Single-region evaluator and parallel orchestrator (main.rs) -/

/-- Structure `SetData` from `main.rs`: the defining region together with the flat
buffer of per-sub-sample escape-iteration counts.  The Rust field `def` is a
Lean keyword, hence `defn`. -/
structure SetData where
  defn : SetDefinition
  data : List ℕ

/-- One iteration `i` of the outer loop of `calc_set`: the inner loop over `r`
produces one sub-sample row at spacing `px_size / oversampling`. -/
def rowData (set_def : SetDefinition) (i : ℕ) : List ℕ :=
  let px_size := set_def.px_size / (set_def.oversampling : ℚ)
  (List.range (set_def.width_px * set_def.oversampling)).map (fun r =>
    escape_iterations (set_def.origin + ⟨(r : ℚ) * px_size, (i : ℚ) * px_size⟩)
      set_def.max_iterations set_def.escape_radius)

/-- Function `calc_set` from `main.rs`: every oversampled sub-sample position in
row-major order (rows outer, bottom row first), each evaluated by
`escape_iterations`. -/
def calc_set (set_def : SetDefinition) : SetData :=
  ⟨set_def, (List.range (set_def.height_px * set_def.oversampling)).flatMap
    (fun i => rowData set_def i)⟩

/-- The tagged per-strip results of `calc_set_parallel`, in submission order:
the source enumerates `split(threads * 10)` and each worker sends back the
pair `(idx, calc_set(def))`. -/
def stripResults (set_def : SetDefinition) (threads : ℕ) : List (ℕ × List ℕ) :=
  (splitBody set_def (threads * 10)).enum.map (fun p => (p.1, (calc_set p.2).data))

/-- The collection phase of `calc_set_parallel`: the received `(index, data)`
pairs — in whatever order they arrived on the channel — are sorted by index
and the data vectors concatenated. -/
def assembleResults (arrivals : List (ℕ × List ℕ)) : List ℕ :=
  ((arrivals.mergeSort (fun a b => a.1 ≤ b.1)).map Prod.snd).flatten

/-- Function `calc_set_parallel` from `main.rs`, modulo scheduling nondeterminism: the
channel delivers the tagged strip results in some arrival order, modelled by
the explicit `arrivals` parameter; the theorem below quantifies over every
arrival order that is a permutation of the submitted work. -/
def calc_set_parallel (set_def : SetDefinition) (arrivals : List (ℕ × List ℕ)) :
    SetData :=
  ⟨set_def, assembleResults arrivals⟩

theorem mergeSort_of_perm_stripResults (set_def : SetDefinition) (threads : ℕ)
    (arrivals : List (ℕ × List ℕ))
    (hperm : arrivals.Perm (stripResults set_def threads)) :
    arrivals.mergeSort (fun a b => a.1 ≤ b.1) = stripResults set_def threads := by
  have hkeys : (stripResults set_def threads).map Prod.fst
      = List.range (splitBody set_def (threads * 10)).length := by
    rw [stripResults, List.map_map]
    have : (Prod.fst ∘ fun p : ℕ × SetDefinition => (p.1, (calc_set p.2).data))
        = Prod.fst := rfl
    rw [this, List.enum_map_fst]
  have hsorted_res : (stripResults set_def threads).Pairwise (fun a b => a.1 < b.1) := by
    apply List.pairwise_map.mp
    rw [hkeys]
    exact List.pairwise_lt_range _
  have hperm' : (arrivals.mergeSort (fun a b => a.1 ≤ b.1)).Perm
      (stripResults set_def threads) :=
    (List.mergeSort_perm arrivals _).trans hperm
  have hnodup : ((arrivals.mergeSort (fun a b => a.1 ≤ b.1)).map Prod.fst).Nodup := by
    apply (hperm'.map Prod.fst).symm.nodup
    rw [hkeys]
    exact List.nodup_range _
  have hne : (arrivals.mergeSort (fun a b => a.1 ≤ b.1)).Pairwise
      (fun a b => a.1 ≠ b.1) := by
    have h' : ((arrivals.mergeSort (fun a b => a.1 ≤ b.1)).map Prod.fst).Pairwise
        (fun a b => a ≠ b) := hnodup
    exact List.pairwise_map.mp h'
  have hle : (arrivals.mergeSort (fun a b => a.1 ≤ b.1)).Pairwise
      (fun a b => a.1 ≤ b.1) := by
    have := @List.sorted_mergeSort (ℕ × List ℕ)
      (fun a b => decide (a.1 ≤ b.1))
      (fun a b c hab hbc => by
        simp only [decide_eq_true_eq] at hab hbc ⊢
        omega)
      (fun a b => by
        simp only [Bool.or_eq_true, decide_eq_true_eq]
        omega)
      arrivals
    exact this.imp (by intro a b h; simpa using h)
  have hsorted_ms : (arrivals.mergeSort (fun a b => a.1 ≤ b.1)).Pairwise
      (fun a b => a.1 < b.1) :=
    (hle.and hne).imp (by intro a b h; omega)
  haveI : IsAntisymm (ℕ × List ℕ) (fun a b => a.1 < b.1) :=
    ⟨fun a b h1 h2 => absurd (h1.trans h2) (lt_irrefl _)⟩
  exact List.eq_of_perm_of_sorted hperm' hsorted_ms hsorted_res

theorem rowData_strip (d : SetDefinition) (imag : ℚ) (h i j : ℕ)
    (him : imag + (i : ℚ) * (d.px_size / (d.oversampling : ℚ))
      = d.origin.imag + (j : ℚ) * (d.px_size / (d.oversampling : ℚ))) :
    rowData { d with origin := ⟨d.origin.real, imag⟩, height_px := h } i
      = rowData d j := by
  simp only [rowData]
  apply List.map_congr_left
  intro r _
  congr 1
  show (⟨d.origin.real + _, imag + _⟩ : Complex) = ⟨d.origin.real + _, d.origin.imag + _⟩
  rw [Complex.mk.injEq]
  exact ⟨rfl, him⟩

theorem flatMap_range_congr {α : Type} (n : ℕ) (f g : ℕ → List α)
    (h : ∀ i, i < n → f i = g i) :
    (List.range n).flatMap f = (List.range n).flatMap g := by
  rw [List.flatMap_def, List.flatMap_def]
  exact congrArg List.flatten (List.map_congr_left (fun i hi => h i (by simpa using hi)))

theorem splitGo_calc (d : SetDefinition) (hos : d.oversampling ≠ 0) :
    ∀ (hs : List ℕ) (S : ℕ) (imag : ℚ),
      imag = d.origin.imag + (S : ℚ) * d.px_size →
      ((splitGo d hs imag).map (fun s => (calc_set s).data)).flatten
        = (List.range (hs.sum * d.oversampling)).flatMap
            (fun i => rowData d (S * d.oversampling + i)) := by
  have hosQ : (d.oversampling : ℚ) ≠ 0 := Nat.cast_ne_zero.mpr hos
  have hpx : (d.oversampling : ℚ) * (d.px_size / (d.oversampling : ℚ)) = d.px_size :=
    mul_div_cancel₀ _ hosQ
  intro hs
  induction hs with
  | nil =>
    intro S imag him
    simp [splitGo]
  | cons h rest ih =>
    intro S imag him
    simp only [splitGo, List.map_cons, List.flatten_cons]
    have hblock : (calc_set { d with origin := ⟨d.origin.real, imag⟩, height_px := h }).data
        = (List.range (h * d.oversampling)).flatMap
            (fun i => rowData d (S * d.oversampling + i)) := by
      show (List.range (h * d.oversampling)).flatMap _ = _
      apply flatMap_range_congr
      intro i _
      apply rowData_strip
      rw [him]
      push_cast
      linear_combination (-(S : ℚ)) * hpx
    have hsum : (h :: rest).sum * d.oversampling
        = h * d.oversampling + rest.sum * d.oversampling := by
      rw [List.sum_cons, Nat.add_mul]
    rw [hblock, hsum, List.range_add, List.flatMap_append, List.flatMap_map]
    congr 1
    have hrest := ih (S + h) (imag + (h : ℚ) * d.px_size)
      (by rw [him]; push_cast; ring)
    rw [hrest]
    apply flatMap_range_congr
    intro i _
    congr 1
    ring

theorem split_calc_concat (d : SetDefinition) (K : ℕ) (hK : K ≠ 0) :
    ((splitBody d K).map (fun s => (calc_set s).data)).flatten
      = (calc_set d).data := by
  rcases Nat.eq_zero_or_pos d.oversampling with hos | hos
  · have hall : ∀ (hs : List ℕ) (imag : ℚ),
        ((splitGo d hs imag).map (fun s => (calc_set s).data)).flatten = [] := by
      intro hs
      induction hs with
      | nil => intro imag; rfl
      | cons h rest ih =>
        intro imag
        simp only [splitGo, List.map_cons, List.flatten_cons, ih]
        simp [calc_set, hos]
    rw [splitBody, hall]
    simp [calc_set, hos]
  · have hmain := splitGo_calc d (by omega) (splitHeights d.height_px K) 0
      d.origin.imag (by push_cast; ring)
    rw [splitBody, hmain, splitHeights_sum _ _ hK]
    show _ = (List.range (d.height_px * d.oversampling)).flatMap (fun i => rowData d i)
    apply flatMap_range_congr
    intro i _
    rw [Nat.zero_mul, Nat.zero_add]

/-- C2: for every region and worker count `T ≥ 1`, and for every order in
which the strip results arrive (any permutation of the tagged per-strip
buffers), the concatenated buffer produced by `calc_set_parallel` is
element-for-element equal to the buffer `calc_set` computes for the unsplit
region.  (Arithmetic is modelled exactly, over `ℚ`.) -/
theorem calc_set_parallel_deterministic (set_def : SetDefinition) (threads : ℕ)
    (arrivals : List (ℕ × List ℕ)) (hT : 1 ≤ threads)
    (hperm : arrivals.Perm (stripResults set_def threads)) :
    (calc_set_parallel set_def arrivals).data = (calc_set set_def).data := by
  show assembleResults arrivals = _
  rw [assembleResults, mergeSort_of_perm_stripResults set_def threads arrivals hperm]
  have hsnd : (stripResults set_def threads).map Prod.snd
      = (splitBody set_def (threads * 10)).map (fun s => (calc_set s).data) := by
    rw [stripResults, List.map_map]
    rw [show (Prod.snd ∘ fun p : ℕ × SetDefinition => (p.1, (calc_set p.2).data))
        = ((fun s => (calc_set s).data) ∘ Prod.snd) from rfl,
      ← List.map_map, List.enum_map_snd]
  rw [hsnd, split_calc_concat set_def (threads * 10) (by omega)]

/-- Witness for C2: a concrete 1×2-pixel region with one worker; the strip
results arriving in reversed order still assemble to the sequential buffer. -/
theorem calc_set_parallel_deterministic_witness :
    (calc_set_parallel ⟨⟨0, 0⟩, 1, 1, 2, 1, 1, 2⟩
        ((stripResults ⟨⟨0, 0⟩, 1, 1, 2, 1, 1, 2⟩ 1).reverse)).data
      = (calc_set ⟨⟨0, 0⟩, 1, 1, 2, 1, 1, 2⟩).data :=
  calc_set_parallel_deterministic ⟨⟨0, 0⟩, 1, 1, 2, 1, 1, 2⟩ 1
    ((stripResults ⟨⟨0, 0⟩, 1, 1, 2, 1, 1, 2⟩ 1).reverse) (by omega)
    (List.reverse_perm _)

/-! ### Sample averager / colour mapper (`pixel_colour`, colour.rs) and
`escape_iter_range` (main.rs) -/

/-- The buffer indices visited by the two nested loops of `pixel_colour`:
`idx_base + i * width_px * oversampling + r` for `i, r in 0..oversampling`,
with `idx_base = (width_px * imag_idx * oversampling * oversampling) +
(real_idx * oversampling)`. -/
def sampleIndices (real_idx imag_idx width_px oversampling : ℕ) : List ℕ :=
  let idx_base := width_px * imag_idx * oversampling * oversampling
    + real_idx * oversampling
  (List.range oversampling).flatMap (fun i =>
    (List.range oversampling).map (fun r =>
      idx_base + i * width_px * oversampling + r))

/-- The colour one sub-sample contributes in `pixel_colour`: the sentinel `0`
maps to `BLACK`, any other count `iters` to `colours[iters - min_iter]`.
(`iters - min_iter` is a `u32` subtraction in the source; the `ℕ` truncated
subtraction used here agrees with it whenever `min_iter ≤ iters`, which the
safety theorem for C10 establishes.) -/
def subsampleColour (set : List ℕ) (min_iter : ℕ) (colours : List Colour)
    (idx : ℕ) : Colour :=
  let iters := set.getD idx 0
  if iters = 0 then BLACK else colours.getD (iters - min_iter) default

/-- Function `pixel_colour` from `colour.rs`: sums, as 3D vectors, the palette colours
of the pixel's `oversampling²` sub-samples, divides by `oversampling²` and
truncates back to a `Colour`. -/
def pixel_colour (set : List ℕ)
    (real_idx imag_idx width_px oversampling min_iter : ℕ)
    (colours : List Colour) : Colour :=
  let total_col := ((sampleIndices real_idx imag_idx width_px oversampling).map
    (fun idx => (subsampleColour set min_iter colours idx).to_vector3d)).foldl
      (fun a b => a + b) ⟨0, 0, 0⟩
  Colour.from_vector3d (total_col / ((oversampling * oversampling : ℕ) : ℚ))

/-- Function `escape_iter_range` from `main.rs`: a linear scan starting from element 0
tracking the minimum and maximum sample values.  (The source reads
`set_vec[0]`, so an empty buffer panics; the claims only use non-empty
buffers.) -/
def escape_iter_range (set_vec : List ℕ) : ℕ × ℕ :=
  (set_vec.tail.foldl min (set_vec.headD 0), set_vec.tail.foldl max (set_vec.headD 0))

/-- Bounds-checked model of one sub-sample lookup of `pixel_colour`: `none`
models a panic — an out-of-bounds buffer read, an out-of-bounds palette read,
or the `u32` subtraction `iters - min_iter` underflowing. -/
def subsampleColourChecked (set : List ℕ) (min_iter : ℕ) (colours : List Colour)
    (idx : ℕ) : Option Colour := do
  let iters ← set[idx]?
  if iters = 0 then pure BLACK
  else if min_iter ≤ iters then colours[iters - min_iter]? else none

/-- Bounds-checked model of `pixel_colour`: every sub-sample lookup is
checked, and the average is formed only when all of them succeed. -/
def pixel_colourChecked (set : List ℕ)
    (real_idx imag_idx width_px oversampling min_iter : ℕ)
    (colours : List Colour) : Option Colour := do
  let cols ← (sampleIndices real_idx imag_idx width_px oversampling).mapM
    (subsampleColourChecked set min_iter colours)
  pure (Colour.from_vector3d (((cols.map Colour.to_vector3d).foldl
    (fun a b => a + b) ⟨0, 0, 0⟩) / ((oversampling * oversampling : ℕ) : ℚ)))

/-- The palette-mapping of the sub-sample at loop offsets `(i, r)` of pixel
`(real_idx, imag_idx)`, as the spec's sample-averager contract describes it:
the sentinel to pure black, a count `i` to `palette[i - min_iter]`. -/
def specSampleVec (set : List ℕ)
    (real_idx imag_idx width_px oversampling min_iter : ℕ)
    (colours : List Colour) (p : ℕ × ℕ) : Vector3d :=
  Colour.to_vector3d (subsampleColour set min_iter colours
    (width_px * imag_idx * oversampling * oversampling + real_idx * oversampling
      + p.1 * width_px * oversampling + p.2))

theorem foldl_add_eq_sum (l : List Vector3d) :
    l.foldl (fun a b => a + b) ⟨0, 0, 0⟩ = l.sum := by
  rw [List.sum_eq_foldl]
  rfl

theorem sum_flatMap_vec {α : Type} (f : α → List Vector3d) :
    ∀ (l : List α), (l.flatMap f).sum = (l.map (fun a => (f a).sum)).sum := by
  intro l
  induction l with
  | nil => rfl
  | cons a l ih =>
    rw [List.flatMap_cons, List.sum_append, List.map_cons, List.sum_cons, ih]

theorem sum_map_range_vec (n : ℕ) (f : ℕ → Vector3d) :
    ((List.range n).map f).sum = ∑ i ∈ Finset.range n, f i := rfl

theorem nsmul_vec (w : Vector3d) : ∀ (n : ℕ), n • w = ⟨n * w.x, n * w.y, n * w.z⟩ := by
  intro n
  induction n with
  | zero => simp [Vector3d.ext_iff]
  | succ m ih =>
    rw [succ_nsmul, ih]
    push_cast
    simp [Vector3d.ext_iff]
    refine ⟨by ring, by ring, by ring⟩

theorem mem_sampleIndices (real_idx imag_idx width_px oversampling i r : ℕ)
    (hi : i < oversampling) (hr : r < oversampling) :
    width_px * imag_idx * oversampling * oversampling + real_idx * oversampling
        + i * width_px * oversampling + r
      ∈ sampleIndices real_idx imag_idx width_px oversampling := by
  rw [sampleIndices, List.mem_flatMap]
  exact ⟨i, by simpa using hi, List.mem_map.mpr ⟨r, by simpa using hr, rfl⟩⟩

theorem pixel_colour_eq_sum (set : List ℕ)
    (real_idx imag_idx width_px oversampling min_iter : ℕ) (colours : List Colour) :
    pixel_colour set real_idx imag_idx width_px oversampling min_iter colours
      = Colour.from_vector3d
          ((∑ p ∈ Finset.range oversampling ×ˢ Finset.range oversampling,
              specSampleVec set real_idx imag_idx width_px oversampling min_iter colours p)
            / ((oversampling * oversampling : ℕ) : ℚ)) := by
  have hnum : ((sampleIndices real_idx imag_idx width_px oversampling).map
      (fun idx => (subsampleColour set min_iter colours idx).to_vector3d)).sum
      = ∑ p ∈ Finset.range oversampling ×ˢ Finset.range oversampling,
          specSampleVec set real_idx imag_idx width_px oversampling min_iter colours p := by
    rw [Finset.sum_product, sampleIndices, List.map_flatMap, sum_flatMap_vec,
      sum_map_range_vec]
    apply Finset.sum_congr rfl
    intro i _
    rw [List.map_map, sum_map_range_vec]
    rfl
  simp only [pixel_colour]
  rw [foldl_add_eq_sum, hnum]

/-- C7: `pixel_colour` maps every non-zero sub-sample count `i` to
`palette[i - min_iter]` and the sentinel `0` to pure black, averages the
mapped colours as 3D vectors — the sum over the `oversampling²` sub-samples
divided by `oversampling²` — and truncates back to an integer colour (first
conjunct, the spec-side sum formula); and whenever all of a pixel's
sub-samples hold the same non-zero count `v`, the pixel colour equals
`palette[v - min_iter]` exactly, with no averaging drift (second conjunct). -/
theorem pixel_colour_mapping (set : List ℕ)
    (real_idx imag_idx width_px oversampling min_iter : ℕ) (colours : List Colour)
    (v : ℕ) (hos : 1 ≤ oversampling) (hv : v ≠ 0) (hmin : min_iter ≤ v)
    (hvp : v - min_iter < colours.length)
    (huni : ∀ idx ∈ sampleIndices real_idx imag_idx width_px oversampling,
      set.getD idx 0 = v) :
    pixel_colour set real_idx imag_idx width_px oversampling min_iter colours
      = Colour.from_vector3d
          ((∑ p ∈ Finset.range oversampling ×ˢ Finset.range oversampling,
              specSampleVec set real_idx imag_idx width_px oversampling min_iter colours p)
            / ((oversampling * oversampling : ℕ) : ℚ)) ∧
    pixel_colour set real_idx imag_idx width_px oversampling min_iter colours
      = colours.getD (v - min_iter) default := by
  refine ⟨pixel_colour_eq_sum set real_idx imag_idx width_px oversampling min_iter colours,
    ?_⟩
  rw [pixel_colour_eq_sum set real_idx imag_idx width_px oversampling min_iter colours]
  have hconst : ∀ p ∈ Finset.range oversampling ×ˢ Finset.range oversampling,
      specSampleVec set real_idx imag_idx width_px oversampling min_iter colours p
        = (colours.getD (v - min_iter) default).to_vector3d := by
    intro p hp
    obtain ⟨hp1, hp2⟩ := Finset.mem_product.mp hp
    have hidx := huni _ (mem_sampleIndices real_idx imag_idx width_px oversampling
      p.1 p.2 (Finset.mem_range.mp hp1) (Finset.mem_range.mp hp2))
    simp only [specSampleVec, subsampleColour, hidx]
    rw [if_neg hv]
  rw [Finset.sum_congr rfl hconst, Finset.sum_const, Finset.card_product,
    Finset.card_range, nsmul_vec]
  have hosQ : ((oversampling * oversampling : ℕ) : ℚ) ≠ 0 :=
    Nat.cast_ne_zero.mpr (Nat.mul_ne_zero (by omega) (by omega))
  have hdiv : (⟨((oversampling * oversampling : ℕ) : ℚ)
        * (colours.getD (v - min_iter) default).to_vector3d.x,
      ((oversampling * oversampling : ℕ) : ℚ)
        * (colours.getD (v - min_iter) default).to_vector3d.y,
      ((oversampling * oversampling : ℕ) : ℚ)
        * (colours.getD (v - min_iter) default).to_vector3d.z⟩ : Vector3d)
        / ((oversampling * oversampling : ℕ) : ℚ)
      = (colours.getD (v - min_iter) default).to_vector3d := by
    rw [Vector3d.ext_iff]
    refine ⟨?_, ?_, ?_⟩ <;>
      exact mul_div_cancel_left₀ _ hosQ
  rw [hdiv, from_vector3d_to_vector3d]

/-- Witness for C7: a single sub-sample (oversampling 1) with count 5,
`min_iter = 5` and a one-colour palette. -/
theorem pixel_colour_mapping_witness :
    pixel_colour [5] 0 0 1 1 5 [⟨7, 7, 7⟩]
      = ([⟨7, 7, 7⟩] : List Colour).getD (5 - 5) default :=
  (pixel_colour_mapping [5] 0 0 1 1 5 [⟨7, 7, 7⟩] 5 (by omega) (by omega) (by omega)
    (by decide) (by decide)).2

theorem foldl_min_le_init (l : List ℕ) : ∀ (init : ℕ), l.foldl min init ≤ init := by
  induction l with
  | nil => intro init; exact le_rfl
  | cons a l ih => intro init; exact le_trans (ih (min init a)) (min_le_left _ _)

theorem foldl_min_le_mem (l : List ℕ) :
    ∀ (init x : ℕ), x ∈ l → l.foldl min init ≤ x := by
  induction l with
  | nil => intro init x hx; simp at hx
  | cons a l ih =>
    intro init x hx
    rcases List.mem_cons.mp hx with rfl | hx
    · exact le_trans (foldl_min_le_init l (min init x)) (min_le_right _ _)
    · exact ih (min init a) x hx

theorem init_le_foldl_max (l : List ℕ) : ∀ (init : ℕ), init ≤ l.foldl max init := by
  induction l with
  | nil => intro init; exact le_rfl
  | cons a l ih => intro init; exact le_trans (le_max_left _ _) (ih (max init a))

theorem mem_le_foldl_max (l : List ℕ) :
    ∀ (init x : ℕ), x ∈ l → x ≤ l.foldl max init := by
  induction l with
  | nil => intro init x hx; simp at hx
  | cons a l ih =>
    intro init x hx
    rcases List.mem_cons.mp hx with rfl | hx
    · exact le_trans (le_max_right _ _) (init_le_foldl_max l (max init x))
    · exact ih (max init a) x hx

theorem escape_iter_range_min_le (set : List ℕ) (hne : set ≠ []) :
    ∀ x ∈ set, (escape_iter_range set).1 ≤ x := by
  match set with
  | [] => exact absurd rfl hne
  | hd :: tl =>
    intro x hx
    rcases List.mem_cons.mp hx with rfl | hx
    · exact foldl_min_le_init tl x
    · exact foldl_min_le_mem tl hd x hx

theorem escape_iter_range_le_max (set : List ℕ) (hne : set ≠ []) :
    ∀ x ∈ set, x ≤ (escape_iter_range set).2 := by
  match set with
  | [] => exact absurd rfl hne
  | hd :: tl =>
    intro x hx
    rcases List.mem_cons.mp hx with rfl | hx
    · exact init_le_foldl_max tl x
    · exact mem_le_foldl_max tl hd x hx

theorem mapM_eq_some {α β : Type} (f : α → Option β) (g : α → β) :
    ∀ (l : List α), (∀ x ∈ l, f x = some (g x)) → l.mapM f = some (l.map g) := by
  intro l
  induction l with
  | nil => intro _; rfl
  | cons a l ih =>
    intro h
    rw [List.mapM_cons, h a (by simp), ih (fun x hx => h x (by simp [hx]))]
    rfl

theorem sampleIndices_bound (real_idx imag_idx width_px height_px oversampling : ℕ)
    (hreal : real_idx < width_px) (himag : imag_idx < height_px) :
    ∀ idx ∈ sampleIndices real_idx imag_idx width_px oversampling,
      idx < width_px * height_px * (oversampling * oversampling) := by
  intro idx hidx
  rw [sampleIndices, List.mem_flatMap] at hidx
  obtain ⟨i, hi, hmem⟩ := hidx
  obtain ⟨r, hr, rfl⟩ := List.mem_map.mp hmem
  rw [List.mem_range] at hi hr
  have ebridge : i * width_px * oversampling = i * (width_px * oversampling) := by
    ring
  have step2 : real_idx * oversampling + oversampling ≤ width_px * oversampling := by
    have h1 : (real_idx + 1) * oversampling ≤ width_px * oversampling :=
      Nat.mul_le_mul (Nat.succ_le_of_lt hreal) le_rfl
    have e : (real_idx + 1) * oversampling = real_idx * oversampling + oversampling := by
      ring
    omega
  have step3 : i * (width_px * oversampling) + width_px * oversampling
      ≤ oversampling * (width_px * oversampling) := by
    have h1 : (i + 1) * (width_px * oversampling)
        ≤ oversampling * (width_px * oversampling) :=
      Nat.mul_le_mul (Nat.succ_le_of_lt hi) le_rfl
    have e : (i + 1) * (width_px * oversampling)
        = i * (width_px * oversampling) + width_px * oversampling := by ring
    omega
  have step4 : width_px * imag_idx * oversampling * oversampling
      + oversampling * (width_px * oversampling)
      ≤ width_px * height_px * (oversampling * oversampling) := by
    have h1 : width_px * (imag_idx + 1) * (oversampling * oversampling)
        ≤ width_px * height_px * (oversampling * oversampling) :=
      Nat.mul_le_mul (Nat.mul_le_mul le_rfl (Nat.succ_le_of_lt himag)) le_rfl
    have e : width_px * (imag_idx + 1) * (oversampling * oversampling)
        = width_px * imag_idx * oversampling * oversampling
          + oversampling * (width_px * oversampling) := by ring
    omega
  omega

/-- C10: under the invariants `render` establishes — `min_iter` and `max_iter`
are the global minimum and maximum of the non-empty sample buffer as computed
by `escape_iter_range`, the buffer has the row-major layout size
`width_px * height_px * oversampling²`, the pixel coordinates lie within the
region, and the palette has at least `max_iter - min_iter + 1` colours — the
bounds-checked model of `pixel_colour` performs no out-of-bounds buffer or
palette access and no underflowing `iters - min_iter` subtraction: it
succeeds, returning exactly the unchecked result.  In particular
`min_iter ≤ iters` holds for every sample value, sentinel `0` included. -/
theorem pixel_colour_safe (set : List ℕ)
    (real_idx imag_idx width_px height_px oversampling : ℕ) (colours : List Colour)
    (hne : set ≠ [])
    (hlen : set.length = width_px * height_px * (oversampling * oversampling))
    (hreal : real_idx < width_px) (himag : imag_idx < height_px)
    (hpal : (escape_iter_range set).2 - (escape_iter_range set).1 + 1
      ≤ colours.length) :
    pixel_colourChecked set real_idx imag_idx width_px oversampling
        (escape_iter_range set).1 colours
      = some (pixel_colour set real_idx imag_idx width_px oversampling
          (escape_iter_range set).1 colours) := by
  have helem : ∀ idx ∈ sampleIndices real_idx imag_idx width_px oversampling,
      subsampleColourChecked set (escape_iter_range set).1 colours idx
        = some (subsampleColour set (escape_iter_range set).1 colours idx) := by
    intro idx hidx
    have hbound : idx < set.length := by
      rw [hlen]
      exact sampleIndices_bound real_idx imag_idx width_px height_px oversampling
        hreal himag idx hidx
    have hget : set[idx]? = some (set.getD idx 0) := by
      rw [List.getD_eq_getElem?_getD, List.getElem?_eq_getElem hbound]
      rfl
    rw [subsampleColourChecked, hget]
    simp only [Option.bind_eq_bind, Option.some_bind]
    by_cases h0 : set.getD idx 0 = 0
    · rw [if_pos h0]
      simp only [subsampleColour]
      rw [if_pos h0]
      rfl
    · have hmem : set.getD idx 0 ∈ set := by
        rw [List.getD_eq_getElem?_getD, List.getElem?_eq_getElem hbound]
        exact List.getElem_mem hbound
      have hminle : (escape_iter_range set).1 ≤ set.getD idx 0 :=
        escape_iter_range_min_le set hne _ hmem
      have hmaxle : set.getD idx 0 ≤ (escape_iter_range set).2 :=
        escape_iter_range_le_max set hne _ hmem
      have hplt : set.getD idx 0 - (escape_iter_range set).1 < colours.length := by
        omega
      rw [if_neg h0, if_pos hminle, List.getElem?_eq_getElem hplt]
      simp only [subsampleColour, if_neg h0]
      have hgd : colours.getD (set.getD idx 0 - (escape_iter_range set).1) default
          = colours[set.getD idx 0 - (escape_iter_range set).1] := by
        rw [List.getD_eq_getElem?_getD, List.getElem?_eq_getElem hplt]
        rfl
      rw [hgd]
  have hmapm := mapM_eq_some
    (subsampleColourChecked set (escape_iter_range set).1 colours)
    (subsampleColour set (escape_iter_range set).1 colours)
    (sampleIndices real_idx imag_idx width_px oversampling) helem
  rw [pixel_colourChecked, hmapm]
  simp only [Option.bind_eq_bind, Option.some_bind]
  rw [List.map_map]
  rfl

/-- Witness for C10: a one-sample buffer `[5]`, a 1×1 region with
oversampling 1, and a one-colour palette; the checked evaluation succeeds and
agrees with the unchecked one. -/
theorem pixel_colour_safe_witness :
    pixel_colourChecked [5] 0 0 1 1 (escape_iter_range [5]).1 [⟨7, 7, 7⟩]
      = some (pixel_colour [5] 0 0 1 1 (escape_iter_range [5]).1 [⟨7, 7, 7⟩]) :=
  pixel_colour_safe [5] 0 0 1 1 1 [⟨7, 7, 7⟩] (by decide) (by decide) (by decide)
    (by decide) (by decide)

end Mandelbrot
